import Mathlib

/- Shallow embedding of the fast Gauss transform KDE implementation in
   src/fastlib/branches/fastlib-stl/mlpack/kde/fgt_kde.h (class FGTKde).

   Modelling conventions:
   - C++ double is modelled as Real (exact real arithmetic), index_t as Int
     or Nat (unbounded, overflow is not in scope for the grid sizes involved).
   - A std::vector that is reserve()d and then written through operator[] is
     modelled as having the stated length (the algorithmic intent; the
     capacity-versus-size distinction is a memory-layout issue outside a
     shallow embedding).
   - arma::mat and arma::vec are modelled as functions Nat -> Nat -> Real
     and Nat -> Real.  The Armadillo expression  arma::vec v = M.col(i)
     creates a fresh copy of the column, so writes to v never reach M; the
     embeddings of the coefficient routines therefore return the pair
     (matrix unchanged, final value of the local copy). -/

/-- Inner loop of MultiDimIndexInSingleArray_: prod = 1; for j < i: prod *= n[j]. -/
def prodBelow (n : List Int) (i : Nat) : Int :=
  (List.range i).foldl (fun prod j => prod * n.getD j 1) 1

/-- fgt_kde.h lines 197-210: encodes d-dimensional grid coordinates into a
single box id, sum of coords[i] * (n[0] * ... * n[i-1]). -/
def MultiDimIndexInSingleArray_ (coords n : List Int) : Int :=
  (List.range coords.length).foldl
    (fun sum i => sum + coords.getD i 0 * prodBelow n i) 0

/-- fgt_kde.h lines 220-228: decodes a box id into grid coordinates,
coords[i] = index % n[i]; index /= n[i].  The C++ loop runs coords.size()
= n.size() times over the output vector; here we peel n structurally.
C++ % and / on index_t truncate toward zero, which is Int.tmod / Int.tdiv. -/
def SingleDimIndexInMultiArray_ : List Int → Int → List Int
  | [], _ => []
  | m :: rest, index => Int.tmod index m :: SingleDimIndexInMultiArray_ rest (Int.tdiv index m)

/-- Closed-form restatement of MultiDimIndexInSingleArray_ used in proofs. -/
def hornerEncode : List Int → List Int → Int
  | [], _ => 0
  | c :: cs, n => c + n.getD 0 1 * hornerEncode cs n.tail

/-- Validity of a coordinate tuple for per-axis box counts n:
componentwise 0 <= c < n. -/
def coordsValid : List Int → List Int → Prop
  | [], [] => True
  | c :: cs, m :: ms => (0 ≤ c ∧ c < m) ∧ coordsValid cs ms
  | _, _ => False

/-- fgt_kde.h lines 241-255: checks whether old_coords + delta stays on the
grid.  The C++ also writes the perturbed coordinates into new_coords (which at
the call site aliases old_coords) and returns early at the first violation;
since the caller reads new_coords only when the result is 1, the successful
output is modelled at the call site as List.map (fun c => c + delta). -/
def IsOngrid_ (old_coords : List Int) (delta : Int) (nsides : List Int) : Bool :=
  (List.range old_coords.length).all fun d =>
    decide (0 ≤ old_coords.getD d 0 + delta ∧ old_coords.getD d 0 + delta < nsides.getD d 1)

/-- fgt_kde.h lines 266-312 (MakeNeighbors_): decode ibox, enumerate all
(2 kdis + 1)^dim per-axis offset combinations through the mixed-radix decode
in base 2 kdis + 1, shift by -kdis, keep the on-grid results, re-encode.
The float pow used for the enumeration count is exact here and modelled as
Nat.pow. -/
def MakeNeighbors_ (ibox : Int) (nsides : List Int) (kdis : Nat) : List Int :=
  let coords := SingleDimIndexInMultiArray_ nsides ibox
  let dim := nsides.length
  let dummy_n : List Int := List.replicate dim (2 * (kdis : Int) + 1)
  let num_neighbors : Nat := (2 * kdis + 1) ^ dim
  (List.range num_neighbors).foldl
    (fun ret (i : Nat) =>
      let delta := SingleDimIndexInMultiArray_ dummy_n (i : Int)
      let new_coords := List.zipWith (fun c d => c + d) coords delta
      if IsOngrid_ new_coords (-(kdis : Int)) nsides then
        ret ++ [MultiDimIndexInSingleArray_ (new_coords.map (fun c => c - (kdis : Int))) nsides]
      else ret)
    []

/-- Per-axis bin index in Assign_ (fgt_kde.h lines 349-351 and 365-367):
floor((coord - min)/h) clamped into [0, nside - 1]. -/
noncomputable def assignBinnum (nside : Int) (h mincoord coord : Real) : Int :=
  max 0 (min ⌊(coord - mincoord) / h⌋ (nside - 1))

/-- Box-number fold of Assign_ (lines 344-353): di runs from dim - 1 down to 0
with boxnum = boxnum * nsides[di] + binnum. -/
noncomputable def assignBoxnum (dim : Nat) (nsides : Nat → Int)
    (sidelengths mincoords : Nat → Real) (x : Nat → Real) : Int :=
  (List.range dim).foldl
    (fun boxnum i =>
      let di := dim - 1 - i
      boxnum * nsides di + assignBinnum (nsides di) (sidelengths di) (mincoords di) (x di))
    0

/-- The point-assignment loops of Assign_ (lines 342-355 for references,
358-371 for queries): each point index r is appended to the list of the box it
falls in.  The per-box lists are modelled as a function from box id to the
list of point indices. -/
noncomputable def assignLists (dim npoints : Nat) (nsides : Nat → Int)
    (sidelengths mincoords : Nat → Real) (pset : Nat → Nat → Real) : Int → List Nat :=
  (List.range npoints).foldl
    (fun lists r => fun b =>
      if b = assignBoxnum dim nsides sidelengths mincoords (fun d => pset d r) then
        lists b ++ [r]
      else lists b)
    (fun _ => [])

/-- Modelled from the spec: the MultiIndexTable collaborator
(MultSeriesExpansionAux, whose source is not under src/).  Spec sections 2 and
6: it enumerates all D-dimensional multi-indices of per-axis degree below the
truncation order in a fixed canonical order consistent with the mixed-radix
tensor layout used by the expansion routines (axis 0 most significant);
multiindexAt p dim j d is the axis-d degree of the j-th multi-index. -/
def multiindexAt (p dim j d : Nat) : Nat := j / p ^ (dim - 1 - d) % p

/-- Modelled from the spec: inverseFactorial(j), the product over axes of
1/(index_d)!. -/
noncomputable def invMultiindexFactorial (p dim : Nat) (j : Nat) : Real :=
  ∏ d ∈ Finset.range dim, (1 : Real) / (Nat.factorial (multiindexAt p dim j d))

/-- Modelled from the spec: signedInverseFactorial(j), the product over axes
of (-1)^(index_d)/(index_d)!. -/
noncomputable def negInvMultiindexFactorial (p dim : Nat) (j : Nat) : Real :=
  ∏ d ∈ Finset.range dim,
    (-1 : Real) ^ (multiindexAt p dim j d) / (Nat.factorial (multiindexAt p dim j d))

/-- Pointwise update of a vector modelled as a function, for embedding
in-place array writes. -/
def updVec (v : Nat → Real) (i : Nat) (x : Real) : Nat → Real :=
  fun j => if j = i then x else v j

/-- Pointwise update of a matrix modelled as a function. -/
def updMat (m : Nat → Nat → Real) (i j : Nat) (x : Real) : Nat → Nat → Real :=
  fun a b => if a = i ∧ b = j then x else m a b

/-- The per-axis Hermite-function recurrence built into hermite_map by
TranslateMultipoleToLocal_, DirectLocalAccumulation_ and
EvaluateMultipoleExpansion_ (e.g. fgt_kde.h lines 632-649): with u the scaled
coordinate difference, value exp(-u^2) at 0, 2 u exp(-u^2) at 1, and
2 u h(k+1) - 2(k+1) h(k) at k+2.  The C++ fills the table up to its limit
index; the recurrence is total here and the routines read it only within that
range. -/
noncomputable def hermiteTable (u : Real) : Nat → Real
  | 0 => Real.exp (-(u * u))
  | 1 => 2 * u * Real.exp (-(u * u))
  | k + 2 => 2 * u * hermiteTable u (k + 1) - 2 * ((k : Real) + 1) * hermiteTable u k

/-- The monomial-power tensor sweep of ComputeMultipoleCoeffs_ (fgt_kde.h
lines 558-572): tmp[0] = 1, then for each axis j the strided pass
tmp[i] = tmp[i - step] * x_r[j].  The iterated integer divisions of the C++
loop header equal the closed forms T / p^(j+1) and T / p^j
(Nat.div_div_eq_div_mul); entries other than 0 are written before they are
read, so the zero initialisation is unobservable. -/
noncomputable def cmcTmpSweep (dim p T : Nat) (x_r : Nat → Real) : Nat → Real :=
  (List.range dim).foldl
    (fun tmp j =>
      let boundary := T / p ^ j
      let step := T / p ^ (j + 1)
      (List.range (T / boundary)).foldl
        (fun t blk =>
          let first := blk * boundary
          (List.range (p - 1)).foldl
            (fun t m => updVec t (first + (m + 1) * step) (t (first + m * step) * x_r j))
            t)
        tmp)
    (updVec (fun _ => 0) 0 1)

/-- fgt_kde.h lines 521-586 (ComputeMultipoleCoeffs_).  The C++ binds
arma::vec A_k = mcoeffs.col(ref_box_num), which copies the column, performs
the cached-computation check A_k[0] != 0 against that copy, and writes the
far-field coefficients only into the copy.  The embedding returns the pair of
the matrix after the call (unchanged) and the final value of the local copy. -/
noncomputable def ComputeMultipoleCoeffs_ (rset : Nat → Nat → Real)
    (mcoeffs : Nat → Nat → Real) (dim p_alpha totalnumcoeffs ref_box_num : Nat)
    (bwsqd_two : Real) (rows : List Nat) (x_R : Nat → Real) :
    (Nat → Nat → Real) × (Nat → Real) :=
  let A_k : Nat → Real := fun i => mcoeffs i ref_box_num
  let bw_times_sqrt_two := Real.sqrt bwsqd_two
  if A_k 0 ≠ 0 then (mcoeffs, A_k)
  else
    let num_rows := rows.length
    let A_k0 := updVec A_k 0 (num_rows : Real)
    let A_k1 := ((List.range totalnumcoeffs).drop 1).foldl (fun A i => updVec A i 0) A_k0
    let A_k2 :=
      if 1 < p_alpha then
        rows.foldl
          (fun A row_num =>
            let x_r : Nat → Real := fun i => (rset i row_num - x_R i) / bw_times_sqrt_two
            let tmp := cmcTmpSweep dim p_alpha totalnumcoeffs x_r
            ((List.range totalnumcoeffs).drop 1).foldl
              (fun A i => updVec A i (A i + tmp i)) A)
          A_k1
      else A_k1
    let A_k3 := ((List.range totalnumcoeffs).drop 1).foldl
      (fun A r => updVec A r (A r * invMultiindexFactorial p_alpha dim r)) A_k2
    (mcoeffs, A_k3)

/-- fgt_kde.h lines 409-506 (TranslateMultipoleToLocal_).  The C++ binds
arma::vec lcoeffs = lcoeffsb.col(query_box_num) and
arma::vec mcoeffs = mcoeffsb.col(ref_box_num): both are copies, so the
translated contribution is accumulated only into the local copy.  The
embedding returns the pair of the local-coefficient matrix after the call
(unchanged) and the final value of the local copy.  The running boundary2 of
the C++ loop is carried explicitly through the fold. -/
noncomputable def TranslateMultipoleToLocal_ (qdim : Nat)
    (ref_box_num query_box_num : Nat) (mcoeffsb lcoeffsb : Nat → Nat → Real)
    (p_alpha totalnumcoeffs : Nat) (bwsqd_2 : Real)
    (hrcentroid dest_hrcentroid : Nat → Real) : (Nat → Nat → Real) × (Nat → Real) :=
  let bandwidth := Real.sqrt bwsqd_2
  let dim := qdim
  let lcoeffs : Nat → Real := fun j => lcoeffsb j query_box_num
  let mcoeffs : Nat → Real := fun l => mcoeffsb l ref_box_num
  let dest_minus_parent : Nat → Real := fun j => dest_hrcentroid j - hrcentroid j
  let hermite_map : Nat → Nat → Real := fun j k =>
    hermiteTable (dest_minus_parent j / bandwidth) k
  let arrtmp0 : Nat → Nat → Real := fun _ _ => 0
  let step0 := totalnumcoeffs / p_alpha
  let arrtmp1 :=
    (List.range totalnumcoeffs).foldl
      (fun arr j =>
        (List.range p_alpha).foldl
          (fun arr k =>
            let l := j % step0 + k * step0
            updMat arr 0 j
              (arr 0 j + mcoeffs l * hermite_map 0 (multiindexAt p_alpha dim j 0 + k)))
          arr)
      arrtmp0
  let arrtmp2 :=
    if 1 < p_alpha then
      (List.range (dim - 1)).foldl
        (fun arr dm1 =>
          let d := dm1 + 1
          let boundary := totalnumcoeffs / p_alpha ^ d
          let step := totalnumcoeffs / p_alpha ^ (d + 1)
          ((List.range totalnumcoeffs).foldl
            (fun st j =>
              let boundary2 := if j % boundary = 0 then st.2 + boundary else st.2
              let arr2 :=
                (List.range p_alpha).foldl
                  (fun arr k =>
                    let jump0 := (j + step * k) % boundary2
                    let jump := if jump0 < boundary2 - boundary then
                        jump0 + (boundary2 - boundary) else jump0
                    updMat arr d j
                      (arr d j + arr (d - 1) jump *
                        hermite_map d (multiindexAt p_alpha dim jump d +
                          multiindexAt p_alpha dim j d)))
                  st.1
              (arr2, boundary2))
            (arr, 0)).1)
        arrtmp1
    else arrtmp1
  let lcoeffsFinal :=
    (List.range totalnumcoeffs).foldl
      (fun lc j =>
        updVec lc j (lc j + negInvMultiindexFactorial p_alpha dim j * arrtmp2 (dim - 1) j))
      lcoeffs
  (lcoeffsb, lcoeffsFinal)

/-- The Taylor tensor sweep of DirectLocalAccumulation_ (fgt_kde.h lines
652-680): arrtmp[0] = 1, then for p_alpha > 1 the strided Hermite sweep, else
the product of the zeroth Hermite values over axes. -/
noncomputable def dlaTaylorSweep (dim p T : Nat) (hermite_map : Nat → Nat → Real) :
    Nat → Real :=
  let arrtmp0 := updVec (fun _ => 0) 0 1
  if 1 < p then
    (List.range dim).foldl
      (fun arr d =>
        let boundary := T / p ^ d
        let step := T / p ^ (d + 1)
        (List.range (T / boundary)).foldl
          (fun arr blk =>
            let first := blk * boundary
            let arr2 :=
              (List.range (p - 1)).foldl
                (fun arr j =>
                  updVec arr (first + (j + 1) * step) (arr first * hermite_map d (j + 1)))
                arr
            updVec arr2 first (arr2 first * hermite_map d 0))
          arr)
      arrtmp0
  else
    (List.range dim).foldl (fun arr d => updVec arr 0 (arr 0 * hermite_map d 0)) arrtmp0

/-- fgt_kde.h lines 601-686 (DirectLocalAccumulation_).  The C++ binds
arma::vec arr = locexps.col(query_box_num), a copy of the column, and
accumulates each reference contribution only into that copy.  The embedding
returns the pair of the local-coefficient matrix after the call (unchanged)
and the final value of the local copy. -/
noncomputable def DirectLocalAccumulation_ (rset : Nat → Nat → Real) (rdim : Nat)
    (rows : List Nat) (query_box_num : Nat) (locexps : Nat → Nat → Real)
    (delta : Real) (dest_hrcentroid : Nat → Real) (p_alpha totalnumcoeffs : Nat) :
    (Nat → Nat → Real) × (Nat → Real) :=
  let dim := rdim
  let bandwidth := Real.sqrt delta
  let arr0 : Nat → Real := fun j => locexps j query_box_num
  let arrFinal :=
    rows.foldl
      (fun arr row_num =>
        let x_r_minus_x_Q : Nat → Real := fun d => dest_hrcentroid d - rset d row_num
        let hermite_map : Nat → Nat → Real := fun d k =>
          hermiteTable (x_r_minus_x_Q d / bandwidth) k
        let arrtmp := dlaTaylorSweep dim p_alpha totalnumcoeffs hermite_map
        (List.range totalnumcoeffs).foldl
          (fun a j => updVec a j (a j + negInvMultiindexFactorial p_alpha dim j * arrtmp j))
          arr)
      arr0
  (locexps, arrFinal)

/-- The polynomial-power tensor sweep of EvaluateLocalExpansion_ (fgt_kde.h
lines 822-840), guarded by totalnumcoeffs > 1 in the source. -/
noncomputable def elTmpSweep (dim p T : Nat) (x_Q_to_x_q : Nat → Real) : Nat → Real :=
  let tmp0 := updVec (fun _ => 0) 0 1
  if 1 < T then
    (List.range dim).foldl
      (fun tmp j =>
        let boundary := T / p ^ j
        let step := T / p ^ (j + 1)
        (List.range (T / boundary)).foldl
          (fun t blk =>
            let first := blk * boundary
            (List.range (p - 1)).foldl
              (fun t m =>
                updVec t (first + (m + 1) * step) (t (first + m * step) * x_Q_to_x_q j))
              t)
          tmp)
      tmp0
  else tmp0

/-- fgt_kde.h lines 801-847 (EvaluateLocalExpansion_): evaluates the local
expansion of a query box at one query point, reading the box's local
coefficients from a copy of the matrix column and dotting them with the
polynomial powers of (query - centroid)/h. -/
noncomputable def EvaluateLocalExpansion_ (qset : Nat → Nat → Real) (qdim : Nat)
    (row_q : Nat) (x_Q : Nat → Real) (h : Real) (query_box_num : Nat)
    (lcoeffsb : Nat → Nat → Real) (totalnumcoeffs p_alpha : Nat) : Real :=
  let dim := qdim
  let x_Q_to_x_q : Nat → Real := fun i => (qset i row_q - x_Q i) / h
  let lcoeffs : Nat → Real := fun i => lcoeffsb i query_box_num
  let tmp := elTmpSweep dim p_alpha totalnumcoeffs x_Q_to_x_q
  (List.range totalnumcoeffs).foldl (fun s i => s + lcoeffs i * tmp i) 0

/-- One iteration step plus continuation of the truncation-order search loop
of FastGaussTransformPreprocess_ (fgt_kde.h lines 148-171).  The C++ loop
do { ip++; ... } while (ret2 > tau) has no bound; the number of remaining
iterations is made explicit as fuel, with none returned when the loop has not
exited within the given fuel. -/
noncomputable def truncLoopGo (two_r : Real) (dim : Nat) (tau : Real) :
    Nat → Nat → Real → Real → Option Nat
  | 0, _, _, _ => none
  | fuel + 1, ip, factorialvalue, r_raised_to_p_alpha =>
      let ip1 := ip + 1
      let factorialvalue1 := factorialvalue * (ip1 : Real)
      let r_raised1 := r_raised_to_p_alpha * two_r
      let first_factor := (1 - r_raised1) * (1 - r_raised1)
      let second_factor := r_raised1 * (2 - r_raised1) / Real.sqrt factorialvalue1
      let ret := 1 / ((1 - two_r) * (1 - two_r)) ^ dim
      let ret2 := ret * ((first_factor + second_factor) ^ dim - first_factor ^ dim)
      if ret2 > tau then truncLoopGo two_r dim tau fuel ip1 factorialvalue1 r_raised1
      else some ip1

/-- The truncation-order search started from ip = 0, factorialvalue = 1,
r_raised_to_p_alpha = 1 as at fgt_kde.h lines 148-153. -/
noncomputable def truncOrderSearch (two_r : Real) (dim : Nat) (tau : Real)
    (fuel : Nat) : Option Nat :=
  truncLoopGo two_r dim tau fuel 0 1 1

/-- The search loops forever: no amount of fuel makes it exit. -/
def truncSearchDiverges (two_r : Real) (dim : Nat) (tau : Real) : Prop :=
  ∀ fuel, truncOrderSearch two_r dim tau fuel = none

/-- Closed form of the error bound ret2 tested by the truncation-order search
at order p (fgt_kde.h lines 158-171). -/
noncomputable def truncErrBound (two_r : Real) (dim p : Nat) : Real :=
  let first_factor := (1 - two_r ^ p) * (1 - two_r ^ p)
  let second_factor := two_r ^ p * (2 - two_r ^ p) / Real.sqrt (Nat.factorial p)
  (1 / ((1 - two_r) * (1 - two_r)) ^ dim) *
    ((first_factor + second_factor) ^ dim - first_factor ^ dim)

/-- Modelled from the spec: the GaussianKernel collaborator (not under src/)
stores bandwidth_sq = h^2 from Init(h) and exposes the dimension-dependent
Gaussian normalization constant (2 pi h^2)^(D/2). -/
structure GaussianKernel where
  bandwidth_sq : Real

noncomputable def GaussianKernel.CalcNormConstant (k : GaussianKernel) (dims : Nat) : Real :=
  Real.sqrt (2 * Real.pi * k.bandwidth_sq) ^ dims

/-- The state of an FGTKde object after Init. -/
structure FGTKdeState where
  kernel : GaussianKernel
  qdim : Nat
  qnum : Nat
  qset : Nat → Nat → Real
  rdim : Nat
  rnum : Nat
  rset : Nat → Nat → Real
  tau : Real
  densities : List Real

/-- fgt_kde.h lines 1147-1159 (Init): initialises the kernel with the
bandwidth parameter, copies the query and reference datasets, sizes the
density vector to the number of query columns (its entries are zero-filled at
the start of Compute, line 1179, before any read), and stores the absolute
error parameter tau.  The body is straight-line: no input is rejected. -/
def FGTKdeInit (bandwidth tau : Real) (qdim qnum : Nat) (qset : Nat → Nat → Real)
    (rdim rnum : Nat) (rset : Nat → Nat → Real) : FGTKdeState :=
  { kernel := { bandwidth_sq := bandwidth * bandwidth }
    qdim := qdim, qnum := qnum, qset := qset
    rdim := rdim, rnum := rnum, rset := rset
    tau := tau
    densities := List.replicate qnum 0 }

/-- The DBL_MAX sentinel used to seed the bounding-box scan. -/
def DBL_MAX : Real := 1.7976931348623157e308

/-- Per-axis minimum coordinate scan of FastGaussTransformPreprocess_
(fgt_kde.h lines 114-127). -/
noncomputable def preprocessMincoord (st : FGTKdeState) (di : Nat) : Real :=
  (List.range st.rnum).foldl
    (fun m n => if m > st.rset di n then st.rset di n else m) DBL_MAX

/-- Per-axis maximum coordinate scan of FastGaussTransformPreprocess_
(fgt_kde.h lines 109-127). -/
noncomputable def preprocessMaxcoord (st : FGTKdeState) (di : Nat) : Real :=
  (List.range st.rnum).foldl
    (fun m n => if m < st.rset di n then st.rset di n else m) (-DBL_MAX)

/-- The C cast (index_t) of a double: truncation toward zero. -/
noncomputable def truncToInt (x : Real) : Int := if 0 ≤ x then ⌊x⌋ else ⌈x⌉

/-- Per-axis box count (fgt_kde.h lines 132-133):
(index_t)((maxcoords[di] - mincoords[di]) / bandwidth + 1). -/
noncomputable def preprocessNsides (st : FGTKdeState) (di : Nat) : Int :=
  truncToInt ((preprocessMaxcoord st di - preprocessMincoord st di) /
    Real.sqrt st.kernel.bandwidth_sq + 1)

/-- The normalised half-box-size boxside (fgt_kde.h lines 111 and 136-141),
the maximum over axes of (extent)/(nsides * 2 * bandwidth), seeded with -1. -/
noncomputable def preprocessBoxside (st : FGTKdeState) : Real :=
  (List.range st.rdim).foldl
    (fun boxside di =>
      let tmp := (preprocessMaxcoord st di - preprocessMincoord st di) /
        ((preprocessNsides st di : Real) * 2 * Real.sqrt st.kernel.bandwidth_sq)
      if tmp > boxside then tmp else boxside)
    (-1)

/-- The truncation order chosen by FastGaussTransformPreprocess_ for a given
state: the search run with two_r = 2 * boxside and dim = rset_.n_rows. -/
noncomputable def preprocessNterms (st : FGTKdeState) (fuel : Nat) : Option Nat :=
  truncOrderSearch (2 * preprocessBoxside st) st.rdim st.tau fuel

/-- fgt_kde.h lines 1108-1115 (NormalizeDensities_): divides each of the qnum
accumulated density values by CalcNormConstant(qset_.n_rows) * rset_.n_cols. -/
noncomputable def NormalizeDensities_ (kernel : GaussianKernel) (qdim qnum rnum : Nat)
    (densities : Nat → Real) : Nat → Real :=
  let norm_const := kernel.CalcNormConstant qdim * (rnum : Real)
  (List.range qnum).foldl (fun ds q => updVec ds q (ds q / norm_const)) densities

/-- Stated from the spec words (sections 3 and 7), for comparison with the
source behaviour: a configuration/input is valid when the bandwidth is
positive, 0 < tau < 1, the query and reference dimensions match, and the
reference set is nonempty. -/
def specValidConfig (bandwidth tau : Real) (qdim rdim rnum : Nat) : Prop :=
  0 < bandwidth ∧ 0 < tau ∧ tau < 1 ∧ qdim = rdim ∧ 0 < rnum

theorem foldl_add_eq_sum {M : Type} [AddCommMonoid M] (f : Nat → M) (a : M) (k : Nat) :
    (List.range k).foldl (fun s i => s + f i) a = a + ∑ i ∈ Finset.range k, f i := by
  induction k with
  | zero => simp
  | succ k ih =>
      rw [List.range_succ, List.foldl_append, ih, Finset.sum_range_succ]
      simp [add_assoc]

theorem foldl_mul_eq_prod (f : Nat → Int) (a : Int) (k : Nat) :
    (List.range k).foldl (fun p j => p * f j) a = a * ∏ j ∈ Finset.range k, f j := by
  induction k with
  | zero => simp
  | succ k ih =>
      rw [List.range_succ, List.foldl_append, ih, Finset.prod_range_succ]
      simp [mul_assoc]

theorem prodBelow_eq_prod (n : List Int) (i : Nat) :
    prodBelow n i = ∏ j ∈ Finset.range i, n.getD j 1 := by
  have h := foldl_mul_eq_prod (fun j => n.getD j 1) 1 i
  simpa [prodBelow] using h

theorem multiDim_eq_sum (coords n : List Int) :
    MultiDimIndexInSingleArray_ coords n =
      ∑ i ∈ Finset.range coords.length, coords.getD i 0 * prodBelow n i := by
  have h := foldl_add_eq_sum (fun i => coords.getD i 0 * prodBelow n i) 0 coords.length
  simpa [MultiDimIndexInSingleArray_] using h

theorem prodBelow_cons (m : Int) (ms : List Int) (i : Nat) :
    prodBelow (m :: ms) (i + 1) = m * prodBelow ms i := by
  rw [prodBelow_eq_prod, prodBelow_eq_prod, Finset.prod_range_succ']
  simp [mul_comm]

theorem multiDim_eq_horner (coords n : List Int) :
    MultiDimIndexInSingleArray_ coords n = hornerEncode coords n := by
  induction coords generalizing n with
  | nil => simp [MultiDimIndexInSingleArray_, hornerEncode]
  | cons c cs ih =>
      rcases n with _ | ⟨m, ms⟩
      · have hpb : ∀ i : Nat, prodBelow ([] : List Int) i = 1 := by
          intro i
          rw [prodBelow_eq_prod]
          simp
        have hcs : MultiDimIndexInSingleArray_ cs [] = hornerEncode cs [] := ih []
        rw [multiDim_eq_sum] at hcs
        rw [multiDim_eq_sum]
        simp only [hpb, mul_one] at hcs
        simp only [List.length_cons, hpb, mul_one]
        rw [Finset.sum_range_succ']
        simp only [List.getD_cons_succ, List.getD_cons_zero]
        rw [hcs]
        simp only [hornerEncode, List.getD_nil, List.tail_nil, one_mul]
        ring
      · rw [multiDim_eq_sum]
        simp only [hornerEncode, List.getD_cons_zero, List.tail_cons, List.length_cons]
        rw [Finset.sum_range_succ']
        simp only [List.getD_cons_succ, List.getD_cons_zero, prodBelow_cons]
        rw [← ih ms, multiDim_eq_sum]
        have : ∀ x : Nat,
            cs.getD x 0 * (m * prodBelow ms x) = m * (cs.getD x 0 * prodBelow ms x) := by
          intro x; ring
        simp only [this, ← Finset.mul_sum]
        have hpb0 : prodBelow (m :: ms) 0 = 1 := by rw [prodBelow_eq_prod]; simp
        rw [hpb0]
        ring

theorem singleDim_length (n : List Int) (index : Int) :
    (SingleDimIndexInMultiArray_ n index).length = n.length := by
  induction n generalizing index with
  | nil => simp [SingleDimIndexInMultiArray_]
  | cons m ms ih => simp [SingleDimIndexInMultiArray_, ih]

/-- For nonnegative dividend and positive divisor, C-style truncating
division and modulus agree with Euclidean division and modulus. -/
theorem tmod_tdiv_of_nonneg (a b : Int) (ha : 0 ≤ a) (hb : 0 ≤ b) :
    Int.tmod a b = a % b ∧ Int.tdiv a b = a / b :=
  ⟨Int.tmod_eq_emod ha hb, Int.tdiv_eq_ediv ha hb⟩

theorem coordsValid_decode (n : List Int) (hn : ∀ m ∈ n, 1 ≤ m) (index : Int)
    (h0 : 0 ≤ index) (hlt : index < n.prod) :
    coordsValid (SingleDimIndexInMultiArray_ n index) n := by
  induction n generalizing index with
  | nil => simp [SingleDimIndexInMultiArray_, coordsValid]
  | cons m ms ih =>
      have hm : 1 ≤ m := hn m (by simp)
      have hmpos : 0 < m := hm
      have hmod := (tmod_tdiv_of_nonneg index m h0 (by omega)).1
      have hdiv := (tmod_tdiv_of_nonneg index m h0 (by omega)).2
      simp only [SingleDimIndexInMultiArray_, coordsValid]
      refine ⟨⟨?_, ?_⟩, ?_⟩
      · rw [hmod]; exact Int.emod_nonneg index (by omega)
      · rw [hmod]; exact Int.emod_lt_of_pos index hmpos
      · apply ih (fun x hx => hn x (by simp [hx]))
        · rw [hdiv]; exact Int.ediv_nonneg h0 (le_of_lt hmpos)
        · rw [hdiv]
          have hprod : index < m * ms.prod := by
            simpa [List.prod_cons] using hlt
          exact Int.ediv_lt_of_lt_mul hmpos (by linarith [hprod, mul_comm m ms.prod])

theorem encode_nonneg_lt (coords n : List Int) (hv : coordsValid coords n) :
    0 ≤ hornerEncode coords n ∧ hornerEncode coords n < n.prod := by
  induction coords generalizing n with
  | nil =>
      rcases n with _ | ⟨m, ms⟩
      · simp [hornerEncode]
      · exact absurd hv (by simp [coordsValid])
  | cons c cs ih =>
      rcases n with _ | ⟨m, ms⟩
      · exact absurd hv (by simp [coordsValid])
      · obtain ⟨⟨hc0, hcm⟩, hrest⟩ := hv
        have := ih ms hrest
        simp only [hornerEncode, List.getD_cons_zero, List.tail_cons, List.prod_cons]
        constructor
        · have : 0 ≤ m * hornerEncode cs ms :=
            mul_nonneg (by linarith) this.1
          linarith
        · have h1 : hornerEncode cs ms ≤ ms.prod - 1 := by linarith [this.2]
          have h2 : m * hornerEncode cs ms ≤ m * (ms.prod - 1) :=
            mul_le_mul_of_nonneg_left h1 (by linarith)
          have : c + m * hornerEncode cs ms ≤ m - 1 + m * (ms.prod - 1) := by linarith
          calc c + m * hornerEncode cs ms ≤ m - 1 + m * (ms.prod - 1) := this
            _ = m * ms.prod - 1 := by ring
            _ < m * ms.prod := by linarith

theorem decode_encode (coords n : List Int) (hv : coordsValid coords n) :
    SingleDimIndexInMultiArray_ n (hornerEncode coords n) = coords := by
  induction coords generalizing n with
  | nil =>
      rcases n with _ | ⟨m, ms⟩
      · simp [SingleDimIndexInMultiArray_]
      · exact absurd hv (by simp [coordsValid])
  | cons c cs ih =>
      rcases n with _ | ⟨m, ms⟩
      · exact absurd hv (by simp [coordsValid])
      · obtain ⟨⟨hc0, hcm⟩, hrest⟩ := hv
        have henc := encode_nonneg_lt cs ms hrest
        have hmpos : 0 < m := by linarith
        simp only [hornerEncode, List.getD_cons_zero, List.tail_cons]
        have harg : 0 ≤ c + m * hornerEncode cs ms := by
          have : 0 ≤ m * hornerEncode cs ms := mul_nonneg (by linarith) henc.1
          linarith
        have hmod := (tmod_tdiv_of_nonneg (c + m * hornerEncode cs ms) m harg (by omega)).1
        have hdiv := (tmod_tdiv_of_nonneg (c + m * hornerEncode cs ms) m harg (by omega)).2
        simp only [SingleDimIndexInMultiArray_, List.cons.injEq]
        refine ⟨?_, ?_⟩
        · rw [hmod]
          rw [Int.add_mul_emod_self_left]
          exact Int.emod_eq_of_lt hc0 hcm
        · rw [hdiv]
          rw [Int.add_mul_ediv_left _ _ (by omega : m ≠ 0)]
          rw [Int.ediv_eq_zero_of_lt hc0 hcm]
          rw [zero_add]
          exact ih ms hrest

theorem encode_decode (n : List Int) (hn : ∀ m ∈ n, 1 ≤ m) (index : Int)
    (h0 : 0 ≤ index) (hlt : index < n.prod) :
    hornerEncode (SingleDimIndexInMultiArray_ n index) n = index := by
  induction n generalizing index with
  | nil =>
      simp only [SingleDimIndexInMultiArray_, hornerEncode]
      simp [List.prod_nil] at hlt
      omega
  | cons m ms ih =>
      have hm : 1 ≤ m := hn m (by simp)
      have hmod := (tmod_tdiv_of_nonneg index m h0 (by omega)).1
      have hdiv := (tmod_tdiv_of_nonneg index m h0 (by omega)).2
      simp only [SingleDimIndexInMultiArray_, hornerEncode, List.getD_cons_zero,
        List.tail_cons]
      rw [hmod, hdiv]
      rw [ih (fun x hx => hn x (by simp [hx]))]
      · exact Int.emod_add_ediv index m
      · exact Int.ediv_nonneg h0 (by omega)
      · have hprod : index < m * ms.prod := by simpa [List.prod_cons] using hlt
        exact Int.ediv_lt_of_lt_mul (by omega) (by linarith [mul_comm m ms.prod])

/-- C9: for every box id in [0, nboxes), decoding into per-axis grid
coordinates and re-encoding returns the original id, and conversely encoding
any valid coordinate tuple lands in [0, nboxes) and decodes back to the same
tuple: the mixed-radix encoding is a bijection between [0, nboxes) and the
coordinate tuples. -/
theorem boxid_roundtrip (n : List Int) (index : Int) (coords : List Int)
    (hn : ∀ m ∈ n, 1 ≤ m) (h0 : 0 ≤ index) (hlt : index < n.prod)
    (hv : coordsValid coords n) :
    MultiDimIndexInSingleArray_ (SingleDimIndexInMultiArray_ n index) n = index ∧
    0 ≤ MultiDimIndexInSingleArray_ coords n ∧
    MultiDimIndexInSingleArray_ coords n < n.prod ∧
    SingleDimIndexInMultiArray_ n (MultiDimIndexInSingleArray_ coords n) = coords := by
  refine ⟨?_, ?_, ?_, ?_⟩
  · rw [multiDim_eq_horner]
    exact encode_decode n hn index h0 hlt
  · rw [multiDim_eq_horner]
    exact (encode_nonneg_lt coords n hv).1
  · rw [multiDim_eq_horner]
    exact (encode_nonneg_lt coords n hv).2
  · rw [multiDim_eq_horner]
    exact decode_encode coords n hv

theorem boxid_roundtrip_witness :
    ((∀ m ∈ ([3, 2] : List Int), 1 ≤ m) ∧ 0 ≤ (5 : Int) ∧
      (5 : Int) < ([3, 2] : List Int).prod ∧ coordsValid [2, 1] [3, 2]) ∧
    (MultiDimIndexInSingleArray_ (SingleDimIndexInMultiArray_ [3, 2] 5) [3, 2] = 5 ∧
     0 ≤ MultiDimIndexInSingleArray_ [2, 1] [3, 2] ∧
     MultiDimIndexInSingleArray_ [2, 1] [3, 2] < ([3, 2] : List Int).prod ∧
     SingleDimIndexInMultiArray_ [3, 2] (MultiDimIndexInSingleArray_ [2, 1] [3, 2]) = [2, 1]) :=
  ⟨⟨by decide, by decide, by decide, by simp [coordsValid]⟩,
   boxid_roundtrip [3, 2] 5 [2, 1] (by decide) (by decide) (by decide) (by simp [coordsValid])⟩

theorem foldl_push_eq_filterMap {α β : Type} (P : α → Bool) (g : α → β) (l : List α)
    (init : List β) :
    l.foldl (fun ret i => if P i then ret ++ [g i] else ret) init
      = init ++ l.filterMap (fun i => if P i then some (g i) else none) := by
  induction l generalizing init with
  | nil => simp
  | cons a l ih =>
      simp only [List.foldl_cons, List.filterMap_cons]
      by_cases h : P a
      · simp [h, ih, List.append_assoc]
      · simp [h, ih]

theorem coordsValid_iff (c n : List Int) :
    coordsValid c n ↔ (c.length = n.length ∧
      ∀ d, d < n.length → 0 ≤ c.getD d 0 ∧ c.getD d 0 < n.getD d 1) := by
  induction c generalizing n with
  | nil =>
      rcases n with _ | ⟨m, ms⟩
      · simp [coordsValid]
      · simp [coordsValid]
  | cons x xs ih =>
      rcases n with _ | ⟨m, ms⟩
      · simp [coordsValid]
      · simp only [coordsValid, List.length_cons, ih]
        constructor
        · rintro ⟨⟨h0, h1⟩, hlen, hrest⟩
          refine ⟨by omega, ?_⟩
          intro d hd
          cases d with
          | zero => simpa using ⟨h0, h1⟩
          | succ d =>
              simpa using hrest d (by omega)
        · rintro ⟨hlen, hall⟩
          refine ⟨?_, by omega, ?_⟩
          · simpa using hall 0 (by omega)
          · intro d hd
            simpa using hall (d + 1) (by omega)

theorem isOngrid_iff (old : List Int) (delta : Int) (nsides : List Int) :
    IsOngrid_ old delta nsides = true ↔
      ∀ d, d < old.length →
        0 ≤ old.getD d 0 + delta ∧ old.getD d 0 + delta < nsides.getD d 1 := by
  simp [IsOngrid_, List.all_eq_true, List.mem_range, decide_eq_true_eq]

theorem getD_eq_getElem_of_lt {α : Type} [Inhabited α] (l : List α) (d : Nat) (x : α)
    (hd : d < l.length) : l.getD d x = l[d] := by
  simp [List.getD_eq_getElem?_getD, List.getElem?_eq_getElem hd]

theorem getD_zipWith_add (a b : List Int) (d : Nat) (ha : d < a.length)
    (hb : d < b.length) :
    (List.zipWith (fun x y => x + y) a b).getD d 0 = a.getD d 0 + b.getD d 0 := by
  have hz : d < (List.zipWith (fun x y : Int => x + y) a b).length := by
    simp [List.length_zipWith]; omega
  rw [getD_eq_getElem_of_lt _ _ _ hz, getD_eq_getElem_of_lt _ _ _ ha,
    getD_eq_getElem_of_lt _ _ _ hb]
  simp [List.getElem_zipWith]

theorem getD_map_sub (a : List Int) (k : Int) (d : Nat) (hd : d < a.length) :
    (a.map (fun c => c - k)).getD d 0 = a.getD d 0 - k := by
  have hm : d < (a.map (fun c => c - k)).length := by simpa using hd
  rw [getD_eq_getElem_of_lt _ _ _ hm, getD_eq_getElem_of_lt _ _ _ hd]
  simp

theorem getD_replicate_int (x : Int) (dim d : Nat) (dflt : Int) (hd : d < dim) :
    (List.replicate dim x).getD d dflt = x := by
  have hm : d < (List.replicate dim x).length := by simpa using hd
  rw [getD_eq_getElem_of_lt _ _ _ hm]
  simp

theorem makeNeighbors_mem (ibox : Int) (nsides : List Int) (kdis : Nat) (b : Int) :
    b ∈ MakeNeighbors_ ibox nsides kdis ↔
      ∃ i, i < (2 * kdis + 1) ^ nsides.length ∧
        IsOngrid_ (List.zipWith (fun c d => c + d)
            (SingleDimIndexInMultiArray_ nsides ibox)
            (SingleDimIndexInMultiArray_
              (List.replicate nsides.length (2 * (kdis : Int) + 1)) (i : Int)))
          (-(kdis : Int)) nsides = true ∧
        b = MultiDimIndexInSingleArray_
            ((List.zipWith (fun c d => c + d)
              (SingleDimIndexInMultiArray_ nsides ibox)
              (SingleDimIndexInMultiArray_
                (List.replicate nsides.length (2 * (kdis : Int) + 1)) (i : Int))).map
              (fun c => c - (kdis : Int))) nsides := by
  unfold MakeNeighbors_
  rw [foldl_push_eq_filterMap]
  simp only [List.nil_append, List.mem_filterMap, List.mem_range]
  constructor
  · rintro ⟨i, hi, hfi⟩
    by_cases h : IsOngrid_ (List.zipWith (fun c d => c + d)
        (SingleDimIndexInMultiArray_ nsides ibox)
        (SingleDimIndexInMultiArray_
          (List.replicate nsides.length (2 * (kdis : Int) + 1)) (i : Int)))
        (-(kdis : Int)) nsides = true
    · rw [if_pos h] at hfi
      exact ⟨i, hi, h, (Option.some_inj.mp hfi).symm⟩
    · rw [if_neg h] at hfi
      exact absurd hfi (by simp)
  · rintro ⟨i, hi, hgrid, hb⟩
    exact ⟨i, hi, by rw [if_pos hgrid, hb]⟩

theorem getD_map_range_int (f : Nat → Int) (dim d : Nat) (hd : d < dim) :
    ((List.range dim).map f).getD d 0 = f d := by
  have hm : d < ((List.range dim).map f).length := by simpa using hd
  rw [getD_eq_getElem_of_lt _ _ _ hm]
  simp

/-- C7: for every box id and interaction range kdis, MakeNeighbors_ returns
exactly the set of valid box ids whose per-axis grid coordinates differ from
the given box's by at most kdis in every axis and lie within [0, nsides[d])
on every axis, with no duplicates. -/
theorem makeNeighbors_chebyshev (nsides : List Int) (ibox : Int) (kdis : Nat) (b : Int)
    (hn : ∀ m ∈ nsides, 1 ≤ m) (h0 : 0 ≤ ibox) (hlt : ibox < nsides.prod) :
    (b ∈ MakeNeighbors_ ibox nsides kdis ↔
      0 ≤ b ∧ b < nsides.prod ∧
      ∀ d, d < nsides.length →
        |(SingleDimIndexInMultiArray_ nsides b).getD d 0 -
          (SingleDimIndexInMultiArray_ nsides ibox).getD d 0| ≤ (kdis : Int)) ∧
    (MakeNeighbors_ ibox nsides kdis).Nodup := by
  have hdim : nsides.length = nsides.length := rfl
  set dim := nsides.length with hdimdef
  set coords := SingleDimIndexInMultiArray_ nsides ibox with hcoordsdef
  set dummy : List Int := List.replicate dim (2 * (kdis : Int) + 1) with hdummydef
  have hdummyLen : dummy.length = dim := by simp [hdummydef]
  have hdummyMem : ∀ m ∈ dummy, 1 ≤ m := by
    intro m hm
    rw [hdummydef, List.mem_replicate] at hm
    omega
  have hdummyProd : dummy.prod = (2 * (kdis : Int) + 1) ^ dim := by
    simp [hdummydef, List.prod_replicate]
  have hcv : coordsValid coords nsides := coordsValid_decode nsides hn ibox h0 hlt
  have hclen : coords.length = dim := by
    rw [hcoordsdef, singleDim_length]
  have hcbounds := (coordsValid_iff coords nsides).mp hcv
  have castLt : ∀ i : Nat, i < (2 * kdis + 1) ^ dim → (i : Int) < dummy.prod := by
    intro i hi
    rw [hdummyProd]
    calc (i : Int) < (((2 * kdis + 1) ^ dim : Nat) : Int) := by exact_mod_cast hi
      _ = (2 * (kdis : Int) + 1) ^ dim := by push_cast; ring
  -- facts about the decoded offset vector for each enumeration index i
  have deltaLen : ∀ i : Nat, (SingleDimIndexInMultiArray_ dummy (i : Int)).length = dim := by
    intro i
    rw [singleDim_length, hdummyLen]
  have deltaBounds : ∀ i : Nat, i < (2 * kdis + 1) ^ dim → ∀ d, d < dim →
      0 ≤ (SingleDimIndexInMultiArray_ dummy (i : Int)).getD d 0 ∧
      (SingleDimIndexInMultiArray_ dummy (i : Int)).getD d 0 < 2 * (kdis : Int) + 1 := by
    intro i hi d hd
    have hv := coordsValid_decode dummy hdummyMem (i : Int) (by positivity) (castLt i hi)
    have hiff := (coordsValid_iff _ _).mp hv
    have hb := hiff.2 d (by omega)
    rwa [getD_replicate_int _ _ _ _ (by omega : d < dim)] at hb
  -- componentwise description of the candidate coordinates
  have ncLen : ∀ i : Nat,
      (List.zipWith (fun c d => c + d) coords
        (SingleDimIndexInMultiArray_ dummy (i : Int))).length = dim := by
    intro i
    rw [List.length_zipWith, hclen, deltaLen]
    omega
  have ncGetD : ∀ i : Nat, ∀ d, d < dim →
      (List.zipWith (fun c d => c + d) coords
        (SingleDimIndexInMultiArray_ dummy (i : Int))).getD d 0 =
      coords.getD d 0 + (SingleDimIndexInMultiArray_ dummy (i : Int)).getD d 0 := by
    intro i d hd
    exact getD_zipWith_add _ _ d (by omega) (by rw [deltaLen]; omega)
  have shiftedLen : ∀ i : Nat,
      ((List.zipWith (fun c d => c + d) coords
        (SingleDimIndexInMultiArray_ dummy (i : Int))).map
          (fun c => c - (kdis : Int))).length = dim := by
    intro i
    rw [List.length_map, ncLen]
  have shiftedGetD : ∀ i : Nat, ∀ d, d < dim →
      ((List.zipWith (fun c d => c + d) coords
        (SingleDimIndexInMultiArray_ dummy (i : Int))).map
          (fun c => c - (kdis : Int))).getD d 0 =
      coords.getD d 0 + (SingleDimIndexInMultiArray_ dummy (i : Int)).getD d 0 - kdis := by
    intro i d hd
    rw [getD_map_sub _ _ d (by rw [ncLen]; omega), ncGetD i d hd]
  -- the on-grid test for candidate i, spelled out componentwise
  have ongridIff : ∀ i : Nat,
      (IsOngrid_ (List.zipWith (fun c d => c + d) coords
        (SingleDimIndexInMultiArray_ dummy (i : Int))) (-(kdis : Int)) nsides = true ↔
      ∀ d, d < dim →
        0 ≤ coords.getD d 0 + (SingleDimIndexInMultiArray_ dummy (i : Int)).getD d 0 - kdis ∧
        coords.getD d 0 + (SingleDimIndexInMultiArray_ dummy (i : Int)).getD d 0 - kdis <
          nsides.getD d 1) := by
    intro i
    rw [isOngrid_iff]
    constructor
    · intro h d hd
      have := h d (by rw [ncLen]; omega)
      rw [ncGetD i d hd] at this
      constructor <;> [linarith [this.1]; linarith [this.2]]
    · intro h d hd
      rw [ncLen] at hd
      have := h d hd
      rw [ncGetD i d hd]
      constructor <;> [linarith [this.1]; linarith [this.2]]
  -- validity of the shifted tuple under the on-grid test
  have shiftedValid : ∀ i : Nat,
      (∀ d, d < dim →
        0 ≤ coords.getD d 0 + (SingleDimIndexInMultiArray_ dummy (i : Int)).getD d 0 - kdis ∧
        coords.getD d 0 + (SingleDimIndexInMultiArray_ dummy (i : Int)).getD d 0 - kdis <
          nsides.getD d 1) →
      coordsValid ((List.zipWith (fun c d => c + d) coords
        (SingleDimIndexInMultiArray_ dummy (i : Int))).map (fun c => c - (kdis : Int)))
        nsides := by
    intro i h
    rw [coordsValid_iff]
    refine ⟨by rw [shiftedLen], ?_⟩
    intro d hd
    rw [shiftedGetD i d (by omega)]
    exact h d (by omega)
  rw [makeNeighbors_mem]
  constructor
  · -- the membership characterisation
    constructor
    · rintro ⟨i, hi, hgrid, hb⟩
      have hcomp := (ongridIff i).mp hgrid
      have hv := shiftedValid i hcomp
      have henc := encode_nonneg_lt _ nsides hv
      have hdec := decode_encode _ nsides hv
      rw [multiDim_eq_horner] at hb
      refine ⟨by rw [hb]; exact henc.1, by rw [hb]; exact henc.2, ?_⟩
      intro d hd
      rw [hb, hdec]
      rw [shiftedGetD i d hd]
      have hdb := deltaBounds i hi d hd
      rw [abs_le]
      constructor <;> [linarith [hdb.1]; linarith [hdb.2]]
    · rintro ⟨hb0, hbp, hdiff⟩
      set c2 := SingleDimIndexInMultiArray_ nsides b with hc2def
      have hc2v : coordsValid c2 nsides := coordsValid_decode nsides hn b hb0 hbp
      have hc2len : c2.length = dim := by rw [hc2def, singleDim_length]
      have hc2bounds := (coordsValid_iff c2 nsides).mp hc2v
      set delta : List Int :=
        (List.range dim).map (fun d => c2.getD d 0 - coords.getD d 0 + kdis) with hddef
      have hdlen : delta.length = dim := by simp [hddef]
      have hdgetD : ∀ d, d < dim →
          delta.getD d 0 = c2.getD d 0 - coords.getD d 0 + kdis := by
        intro d hd
        rw [hddef, getD_map_range_int _ _ _ hd]
      have hdv : coordsValid delta dummy := by
        rw [coordsValid_iff]
        refine ⟨by rw [hdlen, hdummyLen], ?_⟩
        intro d hd
        rw [hdummyLen] at hd
        rw [hdgetD d hd, getD_replicate_int _ _ _ _ hd]
        have := hdiff d hd
        rw [abs_le] at this
        constructor <;> [linarith [this.1]; linarith [this.2]]
      have hencd := encode_nonneg_lt delta dummy hdv
      have hdecd := decode_encode delta dummy hdv
      refine ⟨(hornerEncode delta dummy).toNat, ?_, ?_⟩
      · rw [Int.toNat_lt hencd.1]
        have := hencd.2
        rw [hdummyProd] at this
        calc hornerEncode delta dummy < (2 * (kdis : Int) + 1) ^ dim := this
          _ = (((2 * kdis + 1) ^ dim : Nat) : Int) := by push_cast; ring
      · have hcast : (((hornerEncode delta dummy).toNat : Nat) : Int) =
            hornerEncode delta dummy := Int.toNat_of_nonneg hencd.1
        rw [hcast, hdecd]
        have hshift_eq : (List.zipWith (fun c d => c + d) coords delta).map
            (fun c => c - (kdis : Int)) = c2 := by
          apply List.ext_getElem
          · rw [List.length_map, List.length_zipWith, hclen, hdlen, hc2len]
            simp
          · intro d hd1 hd2
            have hdlt : d < dim := by
              rw [List.length_map, List.length_zipWith, hclen, hdlen] at hd1
              omega
            have hm : ((List.zipWith (fun c d => c + d) coords delta).map
                (fun c => c - (kdis : Int)))[d] =
                ((List.zipWith (fun c d => c + d) coords delta).map
                  (fun c => c - (kdis : Int))).getD d 0 := by
              rw [getD_eq_getElem_of_lt]
            have hm2 : c2[d] = c2.getD d 0 := by rw [getD_eq_getElem_of_lt]
            rw [hm, hm2]
            rw [getD_map_sub _ _ d (by rw [List.length_zipWith, hclen, hdlen]; simp; omega)]
            rw [getD_zipWith_add _ _ d (by omega) (by omega)]
            rw [hdgetD d hdlt]
            ring
        constructor
        · rw [isOngrid_iff]
          intro d hd
          have hdlt : d < nsides.length := by
            rw [List.length_zipWith, singleDim_length, hdlen, hdimdef] at hd
            omega
          rw [getD_zipWith_add _ _ d (by rw [singleDim_length]; exact hdlt)
            (by rw [hdlen, hdimdef]; exact hdlt)]
          rw [hdgetD d hdlt, hcoordsdef]
          have hc2b := hc2bounds.2 d hdlt
          constructor <;> [linarith [hc2b.1]; linarith [hc2b.2]]
        · rw [hshift_eq, multiDim_eq_horner]
          exact (encode_decode nsides hn b hb0 hbp).symm
  · -- no duplicates: the enumeration never produces the same id twice
    unfold MakeNeighbors_
    rw [foldl_push_eq_filterMap]
    rw [List.nil_append]
    rw [List.Nodup, List.pairwise_filterMap]
    apply List.Pairwise.imp_of_mem ?_ (List.pairwise_lt_range ((2 * kdis + 1) ^ dim))
    intro i1 i2 hm1 hm2 hlt12 b1 hb1 b2 hb2
    rw [List.mem_range] at hm1 hm2
    have split : ∀ i : Nat, ∀ bb : Int,
        bb ∈ (if IsOngrid_ (List.zipWith (fun c d => c + d) coords
            (SingleDimIndexInMultiArray_ dummy (i : Int))) (-(kdis : Int)) nsides = true then
          some (MultiDimIndexInSingleArray_
            ((List.zipWith (fun c d => c + d) coords
              (SingleDimIndexInMultiArray_ dummy (i : Int))).map
              (fun c => c - (kdis : Int))) nsides)
        else none) →
        IsOngrid_ (List.zipWith (fun c d => c + d) coords
          (SingleDimIndexInMultiArray_ dummy (i : Int))) (-(kdis : Int)) nsides = true ∧
        bb = MultiDimIndexInSingleArray_
          ((List.zipWith (fun c d => c + d) coords
            (SingleDimIndexInMultiArray_ dummy (i : Int))).map
            (fun c => c - (kdis : Int))) nsides := by
      intro i bb hmem
      by_cases h : IsOngrid_ (List.zipWith (fun c d => c + d) coords
          (SingleDimIndexInMultiArray_ dummy (i : Int))) (-(kdis : Int)) nsides = true
      · rw [if_pos h] at hmem
        simp only [Option.mem_def, Option.some_inj] at hmem
        exact ⟨h, hmem.symm⟩
      · rw [if_neg h] at hmem
        simp at hmem
    obtain ⟨hg1, hbe1⟩ := split i1 b1 hb1
    obtain ⟨hg2, hbe2⟩ := split i2 b2 hb2
    intro hcontra
    apply absurd hlt12
    have hv1 := shiftedValid i1 ((ongridIff i1).mp hg1)
    have hv2 := shiftedValid i2 ((ongridIff i2).mp hg2)
    have hd1 := decode_encode _ nsides hv1
    have hd2 := decode_encode _ nsides hv2
    rw [multiDim_eq_horner] at hbe1 hbe2
    have hshift12 : (List.zipWith (fun c d => c + d) coords
        (SingleDimIndexInMultiArray_ dummy (i1 : Int))).map (fun c => c - (kdis : Int)) =
      (List.zipWith (fun c d => c + d) coords
        (SingleDimIndexInMultiArray_ dummy (i2 : Int))).map (fun c => c - (kdis : Int)) := by
      rw [← hd1, ← hd2, ← hbe1, ← hbe2, hcontra]
    -- componentwise, the decoded offset digits agree, so the lists agree
    have hdelta12 : SingleDimIndexInMultiArray_ dummy (i1 : Int) =
        SingleDimIndexInMultiArray_ dummy (i2 : Int) := by
      apply List.ext_getElem
      · rw [deltaLen, deltaLen]
      · intro d hh1 hh2
        have hdd : d < dim := by rw [deltaLen] at hh1; omega
        have e1 := shiftedGetD i1 d hdd
        have e2 := shiftedGetD i2 d hdd
        rw [hshift12] at e1
        rw [e2] at e1
        rw [getD_eq_getElem_of_lt _ d 0 hh1] at e1
        rw [getD_eq_getElem_of_lt _ d 0 hh2] at e1
        omega
    have hi1 := encode_decode dummy hdummyMem (i1 : Int) (by positivity) (castLt i1 hm1)
    have hi2 := encode_decode dummy hdummyMem (i2 : Int) (by positivity) (castLt i2 hm2)
    have : (i1 : Int) = (i2 : Int) := by
      rw [← hi1, ← hi2, hdelta12]
    omega

theorem makeNeighbors_chebyshev_witness :
    ((∀ m ∈ ([3] : List Int), 1 ≤ m) ∧ 0 ≤ (1 : Int) ∧ (1 : Int) < ([3] : List Int).prod) ∧
    ((2 ∈ MakeNeighbors_ 1 [3] 1 ↔
      0 ≤ (2 : Int) ∧ (2 : Int) < ([3] : List Int).prod ∧
      ∀ d, d < ([3] : List Int).length →
        |(SingleDimIndexInMultiArray_ [3] 2).getD d 0 -
          (SingleDimIndexInMultiArray_ [3] 1).getD d 0| ≤ ((1 : Nat) : Int)) ∧
     (MakeNeighbors_ 1 [3] 1).Nodup) :=
  ⟨⟨by decide, by decide, by decide⟩,
   makeNeighbors_chebyshev [3] 1 1 2 (by decide) (by decide) (by decide)⟩

theorem assignBinnum_range (nside : Int) (h mincoord coord : Real) (hn : 1 ≤ nside) :
    0 ≤ assignBinnum nside h mincoord coord ∧
    assignBinnum nside h mincoord coord ≤ nside - 1 := by
  unfold assignBinnum
  constructor
  · exact le_max_left 0 _
  · rw [max_le_iff]
    exact ⟨by omega, min_le_right _ _⟩

theorem boxnum_fold_bound (l : List Nat) (nsides : Nat → Int) (bin : Nat → Int) (acc : Int)
    (hb : ∀ d ∈ l, 0 ≤ bin d ∧ bin d ≤ nsides d - 1) (hn : ∀ d ∈ l, 1 ≤ nsides d)
    (hacc : 0 ≤ acc) :
    0 ≤ l.foldl (fun s d => s * nsides d + bin d) acc ∧
    l.foldl (fun s d => s * nsides d + bin d) acc ≤ (acc + 1) * (l.map nsides).prod - 1 := by
  induction l generalizing acc with
  | nil => simpa using hacc
  | cons a l ih =>
      have hna : 1 ≤ nsides a := hn a (by simp)
      have hba := hb a (by simp)
      have hstep0 : 0 ≤ acc * nsides a + bin a := by
        have := mul_nonneg hacc (by omega : (0 : Int) ≤ nsides a)
        omega
      have ihres := ih (acc * nsides a + bin a) (fun d hd => hb d (by simp [hd]))
        (fun d hd => hn d (by simp [hd])) hstep0
      refine ⟨by simpa using ihres.1, ?_⟩
      have hprod_pos : 0 < (l.map nsides).prod := by
        apply List.prod_pos
        intro x hx
        rcases List.mem_map.mp hx with ⟨d, hd, rfl⟩
        exact lt_of_lt_of_le one_pos (hn d (by simp [hd]))
      have hstep1 : acc * nsides a + bin a + 1 ≤ (acc + 1) * nsides a := by nlinarith
      calc (a :: l).foldl (fun s d => s * nsides d + bin d) acc
          = l.foldl (fun s d => s * nsides d + bin d) (acc * nsides a + bin a) := by
            simp [List.foldl_cons]
        _ ≤ (acc * nsides a + bin a + 1) * (l.map nsides).prod - 1 := ihres.2
        _ ≤ (acc + 1) * nsides a * (l.map nsides).prod - 1 := by nlinarith
        _ = (acc + 1) * ((a :: l).map nsides).prod - 1 := by
            simp [List.map_cons, List.prod_cons]; ring

theorem prod_map_range_eq (g : Nat → Int) (k : Nat) :
    ((List.range k).map g).prod = ∏ i ∈ Finset.range k, g i := by
  induction k with
  | zero => simp
  | succ k ih =>
      rw [List.range_succ, List.map_append, List.prod_append, ih, Finset.prod_range_succ]
      simp

theorem prod_map_reflect (g : Nat → Int) (dim : Nat) :
    (((List.range dim).map (fun i => dim - 1 - i)).map g).prod
      = ((List.range dim).map g).prod := by
  rw [List.map_map, prod_map_range_eq, prod_map_range_eq]
  exact Finset.prod_range_reflect g dim

theorem assignLists_foldl_eq (key : Nat → Int) (l : List Nat) (init : Int → List Nat)
    (b : Int) :
    (l.foldl (fun lists r => fun x => if x = key r then lists x ++ [r] else lists x) init) b
      = init b ++ l.filter (fun r => decide (b = key r)) := by
  induction l generalizing init with
  | nil => simp
  | cons a l ih =>
      rw [List.foldl_cons, ih, List.filter_cons]
      by_cases h : b = key a
      · simp [h, List.append_assoc]
      · simp [h]

theorem assignLists_eq_filter (dim npoints : Nat) (nsides : Nat → Int)
    (sidelengths mincoords : Nat → Real) (pset : Nat → Nat → Real) (b : Int) :
    assignLists dim npoints nsides sidelengths mincoords pset b
      = (List.range npoints).filter
          (fun r => decide (b = assignBoxnum dim nsides sidelengths mincoords
            (fun d => pset d r))) := by
  rw [assignLists, assignLists_foldl_eq]
  simp

theorem count_range_eq (N r : Nat) : (List.range N).count r = if r < N then 1 else 0 := by
  by_cases h : r < N
  · rw [if_pos h]
    exact List.count_eq_one_of_mem (List.nodup_range N) (List.mem_range.mpr h)
  · rw [if_neg h]
    exact List.count_eq_zero_of_not_mem (fun hc => h (List.mem_range.mp hc))

theorem count_filter_range (N : Nat) (p : Nat → Bool) (r : Nat) :
    ((List.range N).filter p).count r = if p r = true ∧ r < N then 1 else 0 := by
  by_cases h : p r = true ∧ r < N
  · rw [if_pos h]
    exact List.count_eq_one_of_mem ((List.nodup_range N).filter p)
      (List.mem_filter.mpr ⟨List.mem_range.mpr h.2, h.1⟩)
  · rw [if_neg h]
    apply List.count_eq_zero_of_not_mem
    intro hc
    rcases List.mem_filter.mp hc with ⟨hm, hp⟩
    exact h ⟨hp, List.mem_range.mp hm⟩

/-- C8: the point-to-box assignment partitions the point indices.  Every
point index r below the point count receives exactly one box number, that box
number lies in [0, nboxes) where nboxes is the product of the per-axis box
counts, and r appears exactly once in the index list of its box and in no
other box list: nothing is dropped, duplicated, or binned out of range, with
boundary coordinates clamped into range by the per-axis clamp. -/
theorem assign_partition (dim npoints : Nat) (nsides : Nat → Int)
    (sidelengths mincoords : Nat → Real) (pset : Nat → Nat → Real) (r : Nat)
    (hn : ∀ d, d < dim → 1 ≤ nsides d) (hr : r < npoints) :
    (0 ≤ assignBoxnum dim nsides sidelengths mincoords (fun d => pset d r) ∧
     assignBoxnum dim nsides sidelengths mincoords (fun d => pset d r) <
       ((List.range dim).map nsides).prod) ∧
    (∀ b : Int,
      (assignLists dim npoints nsides sidelengths mincoords pset b).count r =
        if b = assignBoxnum dim nsides sidelengths mincoords (fun d => pset d r)
        then 1 else 0) := by
  constructor
  · have hmem : ∀ d ∈ (List.range dim).map (fun i => dim - 1 - i), d < dim := by
      intro d hd
      rcases List.mem_map.mp hd with ⟨i, hi, rfl⟩
      rw [List.mem_range] at hi
      omega
    have hfold : assignBoxnum dim nsides sidelengths mincoords (fun d => pset d r) =
        ((List.range dim).map (fun i => dim - 1 - i)).foldl
          (fun s di => s * nsides di +
            assignBinnum (nsides di) (sidelengths di) (mincoords di) (pset di r)) 0 := by
      rw [assignBoxnum, List.foldl_map]
    have hbound := boxnum_fold_bound ((List.range dim).map (fun i => dim - 1 - i)) nsides
      (fun di => assignBinnum (nsides di) (sidelengths di) (mincoords di) (pset di r)) 0
      (fun d hd => assignBinnum_range _ _ _ _ (hn d (hmem d hd)))
      (fun d hd => hn d (hmem d hd)) le_rfl
    have hprod := prod_map_reflect nsides dim
    constructor
    · rw [hfold]
      simpa using hbound.1
    · rw [hfold]
      have h2 := hbound.2
      rw [hprod] at h2
      simp only [] at h2
      calc ((List.range dim).map (fun i => dim - 1 - i)).foldl
            (fun s di => s * nsides di +
              assignBinnum (nsides di) (sidelengths di) (mincoords di) (pset di r)) 0
          ≤ (0 + 1) * ((List.range dim).map nsides).prod - 1 := by simpa using h2
        _ < ((List.range dim).map nsides).prod := by omega
  · intro b
    rw [assignLists_eq_filter, count_filter_range]
    by_cases hb : b = assignBoxnum dim nsides sidelengths mincoords (fun d => pset d r)
    · rw [if_pos hb, if_pos ⟨by simpa using hb, hr⟩]
    · rw [if_neg hb, if_neg]
      intro hc
      exact hb (by simpa using hc.1)

theorem assign_partition_witness :
    ((∀ d, d < 1 → 1 ≤ (fun _ : Nat => (1 : Int)) d) ∧ 0 < 1) ∧
    ((0 ≤ assignBoxnum 1 (fun _ => 1) (fun _ => 1) (fun _ => 0) (fun d => (fun _ _ => (0 : Real)) d 0) ∧
      assignBoxnum 1 (fun _ => 1) (fun _ => 1) (fun _ => 0) (fun d => (fun _ _ => (0 : Real)) d 0) <
        ((List.range 1).map (fun _ => (1 : Int))).prod) ∧
     (∀ b : Int,
       (assignLists 1 1 (fun _ => 1) (fun _ => 1) (fun _ => 0) (fun _ _ => 0) b).count 0 =
         if b = assignBoxnum 1 (fun _ => 1) (fun _ => 1) (fun _ => 0)
            (fun d => (fun _ _ => (0 : Real)) d 0) then 1 else 0)) :=
  ⟨⟨fun _ _ => le_refl 1, Nat.one_pos⟩,
   assign_partition 1 1 (fun _ => 1) (fun _ => 1) (fun _ => 0) (fun _ _ => 0) 0
     (fun _ _ => le_refl 1) Nat.one_pos⟩

theorem foldl_updVec_div_ge (c : Real) (n : Nat) (ds : Nat → Real) (q : Nat) (hq : n ≤ q) :
    ((List.range n).foldl (fun v i => updVec v i (v i / c)) ds) q = ds q := by
  induction n with
  | zero => simp
  | succ n ih =>
      rw [List.range_succ, List.foldl_append]
      simp only [List.foldl_cons, List.foldl_nil]
      rw [updVec]
      rw [if_neg (by omega)]
      exact ih (by omega)

theorem foldl_updVec_div (c : Real) (n : Nat) (ds : Nat → Real) (q : Nat) (hq : q < n) :
    ((List.range n).foldl (fun v i => updVec v i (v i / c)) ds) q = ds q / c := by
  induction n with
  | zero => omega
  | succ n ih =>
      rw [List.range_succ, List.foldl_append]
      simp only [List.foldl_cons, List.foldl_nil]
      rw [updVec]
      by_cases h : q = n
      · rw [if_pos h, h]
        rw [foldl_updVec_div_ge c n ds n le_rfl]
      · rw [if_neg h]
        exact ih (by omega)

/-- C10: the final normalization divides every query's accumulated density
value by CalcNormConstant(D) times the reference point count, with D the
query dimension; the division applies uniformly to every query index below
the query count. -/
theorem normalize_divides (kernel : GaussianKernel) (qdim qnum rnum : Nat)
    (densities : Nat → Real) (q : Nat) (hq : q < qnum) :
    NormalizeDensities_ kernel qdim qnum rnum densities q =
      densities q / (GaussianKernel.CalcNormConstant kernel qdim * (rnum : Real)) := by
  rw [NormalizeDensities_]
  exact foldl_updVec_div _ qnum densities q hq

theorem normalize_divides_witness :
    0 < 1 ∧
    NormalizeDensities_ { bandwidth_sq := 1 } 1 1 1 (fun _ => 3) 0 =
      (fun _ : Nat => (3 : Real)) 0 /
        (GaussianKernel.CalcNormConstant { bandwidth_sq := 1 } 1 * ((1 : Nat) : Real)) :=
  ⟨Nat.one_pos, normalize_divides { bandwidth_sq := 1 } 1 1 1 (fun _ => 3) 0 Nat.one_pos⟩

/-- C4: each of ComputeMultipoleCoeffs_, TranslateMultipoleToLocal_ and
DirectLocalAccumulation_ leaves the coefficient matrix passed as its output
argument identical to its value before the call, because each routine binds
the target column to a fresh copy (arma::vec from a column subview) and
writes only to that copy. -/
theorem coefficient_matrices_unchanged :
    (∀ (rset mcoeffs : Nat → Nat → Real) (dim p_alpha totalnumcoeffs ref_box_num : Nat)
        (bwsqd_two : Real) (rows : List Nat) (x_R : Nat → Real),
      (ComputeMultipoleCoeffs_ rset mcoeffs dim p_alpha totalnumcoeffs ref_box_num
        bwsqd_two rows x_R).1 = mcoeffs) ∧
    (∀ (qdim ref_box_num query_box_num : Nat) (mcoeffsb lcoeffsb : Nat → Nat → Real)
        (p_alpha totalnumcoeffs : Nat) (bwsqd_2 : Real)
        (hrcentroid dest_hrcentroid : Nat → Real),
      (TranslateMultipoleToLocal_ qdim ref_box_num query_box_num mcoeffsb lcoeffsb
        p_alpha totalnumcoeffs bwsqd_2 hrcentroid dest_hrcentroid).1 = lcoeffsb) ∧
    (∀ (rset : Nat → Nat → Real) (rdim : Nat) (rows : List Nat) (query_box_num : Nat)
        (locexps : Nat → Nat → Real) (delta : Real) (dest_hrcentroid : Nat → Real)
        (p_alpha totalnumcoeffs : Nat),
      (DirectLocalAccumulation_ rset rdim rows query_box_num locexps delta
        dest_hrcentroid p_alpha totalnumcoeffs).1 = locexps) := by
  refine ⟨?_, ?_, ?_⟩
  · intro rset mcoeffs dim p_alpha totalnumcoeffs ref_box_num bwsqd_two rows x_R
    by_cases h : mcoeffs 0 ref_box_num ≠ 0
    · simp only [ComputeMultipoleCoeffs_]
      rw [if_pos h]
    · simp only [ComputeMultipoleCoeffs_]
      rw [if_neg h]
  · intro qdim ref_box_num query_box_num mcoeffsb lcoeffsb p_alpha totalnumcoeffs bwsqd_2
      hrcentroid dest_hrcentroid
    rfl
  · intro rset rdim rows query_box_num locexps delta dest_hrcentroid p_alpha totalnumcoeffs
    rfl

/-- C2 (code-bug evidence): at a concrete one-dimensional input (one reference
point coinciding with the destination centroid, truncation order 1), the local
accumulation computed by DirectLocalAccumulation_ is 1, yet the shared
local-coefficient matrix it returns still holds 0 at the destination column:
the contribution is added only to a copy of the column and discarded. -/
theorem dla_accumulation_discarded :
    (DirectLocalAccumulation_ (fun _ _ => 0) 1 [0] 0 (fun _ _ => 0) 2
      (fun _ => 0) 1 1).1 0 0 = 0 ∧
    (DirectLocalAccumulation_ (fun _ _ => 0) 1 [0] 0 (fun _ _ => 0) 2
      (fun _ => 0) 1 1).2 0 = 1 := by
  constructor
  · rfl
  · simp only [DirectLocalAccumulation_, dlaTaylorSweep, List.foldl_cons, List.foldl_nil,
      List.range_succ, List.range_zero, List.nil_append, List.foldl_append]
    norm_num [updVec, hermiteTable, negInvMultiindexFactorial, multiindexAt]

/-- C3 (code-bug evidence): ComputeMultipoleCoeffs_ computes its cached-check
and its coefficients against a copy of the matrix column, so the far-field
coefficients are never stored: after a first call for box 0 the stored matrix
entry is still 0, and a second call for the same box runs the computation
again (returning the freshly computed leading coefficient 1, not a cached
no-op that would have left the copied column at 0). -/
theorem cmc_cache_never_populated :
    (ComputeMultipoleCoeffs_ (fun _ _ => 0) (fun _ _ => 0) 1 1 1 0 2 [0]
      (fun _ => 0)).1 0 0 = 0 ∧
    (ComputeMultipoleCoeffs_ (fun _ _ => 0)
      ((ComputeMultipoleCoeffs_ (fun _ _ => 0) (fun _ _ => 0) 1 1 1 0 2 [0]
        (fun _ => 0)).1) 1 1 1 0 2 [0] (fun _ => 0)).2 0 = 1 := by
  have h1 : (ComputeMultipoleCoeffs_ (fun _ _ => 0) (fun _ _ => 0) 1 1 1 0 2 [0]
      (fun _ => 0)).1 = (fun _ _ => 0) := by
    simp only [ComputeMultipoleCoeffs_]
    rw [if_neg (by simp)]
  constructor
  · rw [h1]
  · rw [h1]
    simp only [ComputeMultipoleCoeffs_]
    rw [if_neg (by simp)]
    norm_num [updVec, List.range_succ]

/-- C1 (code-bug evidence): evaluating the local expansion of a box whose
local-coefficient matrix is all zero yields exactly 0 for every query point.
Combined with the fact that the local-coefficient matrix is never actually
updated (the accumulation routines write to copies), every query served
through the local-expansion path receives density contribution 0, so the
advertised absolute error bound tau cannot hold. -/
theorem evaluateLocal_zero_coeffs (qset : Nat → Nat → Real) (qdim row_q : Nat)
    (x_Q : Nat → Real) (h : Real) (query_box_num totalnumcoeffs p_alpha : Nat) :
    EvaluateLocalExpansion_ qset qdim row_q x_Q h query_box_num (fun _ _ => 0)
      totalnumcoeffs p_alpha = 0 := by
  simp only [EvaluateLocalExpansion_]
  rw [foldl_add_eq_sum]
  simp

theorem truncLoopGo_half_none : ∀ (fuel ip : Nat) (fact rp : Real),
    0 < fact → 0 < rp → rp ≤ 1 →
    truncLoopGo (1/2) 1 0 fuel ip fact rp = none := by
  intro fuel
  induction fuel with
  | zero => intro ip fact rp _ _ _; rfl
  | succ fuel ih =>
      intro ip fact rp hfact hrp hrp1
      rw [truncLoopGo]
      split
      · exact ih (ip + 1) _ _
          (mul_pos hfact (by exact_mod_cast Nat.succ_pos ip))
          (mul_pos hrp (by norm_num)) (by nlinarith)
      · rename_i h
        exfalso
        apply h
        have hF : (0 : Real) < fact * ((ip + 1 : Nat) : Real) :=
          mul_pos hfact (by exact_mod_cast Nat.succ_pos ip)
        have hsq : 0 < Real.sqrt (fact * ((ip + 1 : Nat) : Real)) := Real.sqrt_pos.mpr hF
        have hsf : 0 < rp * (1/2) * (2 - rp * (1/2)) /
            Real.sqrt (fact * ((ip + 1 : Nat) : Real)) :=
          div_pos (mul_pos (by linarith) (by nlinarith)) hsq
        nlinarith [hsf]

/-- C5 counterexample: with convergence ratio two_r = 1/2 (attainable from
the grid preprocessing) and tau = 0 (a tolerance the code never rejects), the
truncation-order search loops forever: no fuel bound makes it exit, there is
no hard maximum order, and no error is ever reported. -/
theorem truncSearch_diverges_concrete : truncSearchDiverges (1/2) 1 0 := by
  intro fuel
  rw [truncOrderSearch]
  exact truncLoopGo_half_none fuel 0 1 1 one_pos one_pos le_rfl

theorem pow_sub_pow_le_three (a b : Real) (hb : 0 ≤ b) (hba : b ≤ a) (ha3 : a ≤ 3) :
    ∀ d : Nat, a ^ d - b ^ d ≤ d * (a - b) * 3 ^ d := by
  intro d
  induction d with
  | zero => simp
  | succ d ih =>
      have h3 : (0 : Real) ≤ 3 ^ d := by positivity
      have hbd : b ^ d ≤ a ^ d := pow_le_pow_left₀ hb hba d
      have had : a ^ d ≤ 3 ^ d := pow_le_pow_left₀ (le_trans hb hba) ha3 d
      have hb0d : (0 : Real) ≤ b ^ d := by positivity
      calc a ^ (d + 1) - b ^ (d + 1) = a * (a ^ d - b ^ d) + (a - b) * b ^ d := by ring
        _ ≤ 3 * ((d : Real) * (a - b) * 3 ^ d) + (a - b) * 3 ^ d := by nlinarith
        _ ≤ ((d : Real) + 1) * (a - b) * 3 ^ (d + 1) := by
            have hab : (0 : Real) ≤ a - b := by linarith
            have : (0 : Real) ≤ (a - b) * 3 ^ d := mul_nonneg hab h3
            calc 3 * ((d : Real) * (a - b) * 3 ^ d) + (a - b) * 3 ^ d
                = (3 * (d : Real) + 1) * ((a - b) * 3 ^ d) := by ring
              _ ≤ (3 * (d : Real) + 3) * ((a - b) * 3 ^ d) := by nlinarith
              _ = ((d : Real) + 1) * (a - b) * 3 ^ (d + 1) := by ring
        _ = (((d + 1 : Nat) : Real)) * (a - b) * 3 ^ (d + 1) := by push_cast; ring

theorem truncErrBound_le (r : Real) (dim p : Nat) (h0 : 0 ≤ r) (h1 : r < 1) :
    truncErrBound r dim p ≤
      (1 / ((1 - r) * (1 - r)) ^ dim) * ((dim : Real) * (2 * r ^ p) * 3 ^ dim) := by
  have hrp0 : 0 ≤ r ^ p := by positivity
  have hrp1 : r ^ p ≤ 1 := pow_le_one₀ h0 (le_of_lt h1)
  have hff0 : 0 ≤ (1 - r ^ p) * (1 - r ^ p) := by nlinarith
  have hff1 : (1 - r ^ p) * (1 - r ^ p) ≤ 1 := by nlinarith
  have hfact1 : (1 : Real) ≤ (Nat.factorial p : Real) := by
    have := Nat.factorial_pos p
    exact_mod_cast this
  have hsq : 1 ≤ Real.sqrt (Nat.factorial p) := by
    rw [show (1 : Real) = Real.sqrt 1 from Real.sqrt_one.symm]
    exact Real.sqrt_le_sqrt hfact1
  have hsf0 : 0 ≤ r ^ p * (2 - r ^ p) / Real.sqrt (Nat.factorial p) :=
    div_nonneg (by nlinarith) (by positivity)
  have hsf2 : r ^ p * (2 - r ^ p) / Real.sqrt (Nat.factorial p) ≤ 2 * r ^ p := by
    calc r ^ p * (2 - r ^ p) / Real.sqrt (Nat.factorial p) ≤ r ^ p * (2 - r ^ p) :=
          div_le_self (by nlinarith) hsq
      _ ≤ 2 * r ^ p := by nlinarith
  have hsum3 : (1 - r ^ p) * (1 - r ^ p) +
      r ^ p * (2 - r ^ p) / Real.sqrt (Nat.factorial p) ≤ 3 := by nlinarith
  have hkey := pow_sub_pow_le_three
    ((1 - r ^ p) * (1 - r ^ p) + r ^ p * (2 - r ^ p) / Real.sqrt (Nat.factorial p))
    ((1 - r ^ p) * (1 - r ^ p)) hff0 (by linarith) hsum3 dim
  have hret : (0 : Real) ≤ 1 / ((1 - r) * (1 - r)) ^ dim :=
    div_nonneg zero_le_one (pow_nonneg (mul_self_nonneg (1 - r)) dim)
  simp only [truncErrBound]
  have h3d : (0 : Real) ≤ (dim : Real) * 3 ^ dim := by positivity
  apply mul_le_mul_of_nonneg_left _ hret
  calc ((1 - r ^ p) * (1 - r ^ p) + r ^ p * (2 - r ^ p) / Real.sqrt (Nat.factorial p)) ^ dim -
        ((1 - r ^ p) * (1 - r ^ p)) ^ dim
      ≤ (dim : Real) * (r ^ p * (2 - r ^ p) / Real.sqrt (Nat.factorial p) +
          (1 - r ^ p) * (1 - r ^ p) - (1 - r ^ p) * (1 - r ^ p)) * 3 ^ dim := by
        have := hkey
        calc ((1 - r ^ p) * (1 - r ^ p) + r ^ p * (2 - r ^ p) / Real.sqrt (Nat.factorial p)) ^ dim -
              ((1 - r ^ p) * (1 - r ^ p)) ^ dim
            ≤ (dim : Real) * (((1 - r ^ p) * (1 - r ^ p) +
                r ^ p * (2 - r ^ p) / Real.sqrt (Nat.factorial p)) -
                (1 - r ^ p) * (1 - r ^ p)) * 3 ^ dim := this
          _ = (dim : Real) * (r ^ p * (2 - r ^ p) / Real.sqrt (Nat.factorial p) +
                (1 - r ^ p) * (1 - r ^ p) - (1 - r ^ p) * (1 - r ^ p)) * 3 ^ dim := by ring
    _ ≤ (dim : Real) * (2 * r ^ p) * 3 ^ dim := by
        have h3p : (0 : Real) ≤ 3 ^ dim := by positivity
        have hd0 : (0 : Real) ≤ (dim : Real) := by positivity
        nlinarith [hsf2]

theorem truncErrBound_eventually_le (r tau : Real) (dim : Nat) (h0 : 0 ≤ r) (h1 : r < 1)
    (ht : 0 < tau) : ∃ p : Nat, 1 ≤ p ∧ truncErrBound r dim p ≤ tau := by
  rcases Nat.eq_zero_or_pos dim with hdim | hdim
  · refine ⟨1, le_rfl, ?_⟩
    subst hdim
    simp only [truncErrBound, pow_zero]
    nlinarith
  · set C : Real := (1 / ((1 - r) * (1 - r)) ^ dim) * ((dim : Real) * 2 * 3 ^ dim) with hCdef
    have hCpos : 0 < C := by
      rw [hCdef]
      apply mul_pos
      · apply div_pos one_pos
        apply pow_pos
        nlinarith
      · have : (0 : Real) < (dim : Real) := by exact_mod_cast hdim
        positivity
    obtain ⟨n, hn⟩ := exists_pow_lt_of_lt_one (div_pos ht hCpos) h1
    refine ⟨n + 1, by omega, ?_⟩
    have hrstep : r ^ (n + 1) ≤ r ^ n := by
      rw [pow_succ]
      nlinarith [pow_nonneg h0 n, pow_le_one₀ h0 (le_of_lt h1) (n := n)]
    have hble := truncErrBound_le r dim (n + 1) h0 h1
    have hCr : (1 / ((1 - r) * (1 - r)) ^ dim) * ((dim : Real) * (2 * r ^ (n + 1)) * 3 ^ dim)
        = C * r ^ (n + 1) := by
      rw [hCdef]; ring
    have hfin : C * r ^ (n + 1) ≤ C * r ^ n := by
      apply mul_le_mul_of_nonneg_left hrstep (le_of_lt hCpos)
    have hlast : C * r ^ n < tau := by
      have := mul_lt_mul_of_pos_left hn hCpos
      rwa [mul_div_cancel₀ tau (ne_of_gt hCpos)] at this
    calc truncErrBound r dim (n + 1)
        ≤ (1 / ((1 - r) * (1 - r)) ^ dim) * ((dim : Real) * (2 * r ^ (n + 1)) * 3 ^ dim) := hble
      _ = C * r ^ (n + 1) := hCr
      _ ≤ C * r ^ n := hfin
      _ ≤ tau := le_of_lt hlast

theorem truncStep_eq_bound (r tau : Real) (dim fuel ip : Nat) :
    truncLoopGo r dim tau (fuel + 1) ip (Nat.factorial ip) (r ^ ip) =
      if truncErrBound r dim (ip + 1) > tau then
        truncLoopGo r dim tau fuel (ip + 1) (Nat.factorial (ip + 1)) (r ^ (ip + 1))
      else some (ip + 1) := by
  simp only [truncLoopGo, truncErrBound]
  have hcast : (Nat.factorial ip : Real) * ((ip + 1 : Nat) : Real) =
      (Nat.factorial (ip + 1) : Real) := by
    rw [Nat.factorial_succ]
    push_cast
    ring
  rw [hcast, ← pow_succ]

theorem truncLoopGo_reaches (r tau : Real) (dim : Nat) :
    ∀ (k ip : Nat), truncErrBound r dim (ip + k + 1) ≤ tau →
      ∃ n, truncLoopGo r dim tau (k + 1) ip (Nat.factorial ip) (r ^ ip) = some n := by
  intro k
  induction k with
  | zero =>
      intro ip hb
      rw [truncStep_eq_bound]
      rw [if_neg (not_lt.mpr hb)]
      exact ⟨ip + 1, rfl⟩
  | succ k ih =>
      intro ip hb
      rw [truncStep_eq_bound]
      by_cases h : truncErrBound r dim (ip + 1) > tau
      · rw [if_pos h]
        exact ih (ip + 1)
          (by rw [show ip + 1 + k + 1 = ip + (k + 1) + 1 from by ring]; exact hb)
      · rw [if_neg h]
        exact ⟨ip + 1, rfl⟩

/-- C5 amended: the truncation-order search terminates for every valid input:
whenever the convergence ratio two_r lies in [0, 1), as the grid preprocessing
guarantees, and tau is positive, some finite number of iterations makes the
closed-form error bound drop to tau, and the search exits with that order.
(The code achieves this through convergence alone: it has no hard maximum
order and no failure report, and it diverges for tau ≤ 0.) -/
theorem truncSearch_terminates_valid (two_r tau : Real) (dim : Nat)
    (h0 : 0 ≤ two_r) (h1 : two_r < 1) (ht : 0 < tau) :
    ∃ fuel n, truncOrderSearch two_r dim tau fuel = some n := by
  obtain ⟨p, hp1, hple⟩ := truncErrBound_eventually_le two_r tau dim h0 h1 ht
  have hb0 : truncErrBound two_r dim (0 + (p - 1) + 1) ≤ tau := by
    rw [show 0 + (p - 1) + 1 = p from by omega]
    exact hple
  obtain ⟨n, hn⟩ := truncLoopGo_reaches two_r tau dim (p - 1) 0 hb0
  refine ⟨p - 1 + 1, n, ?_⟩
  rw [truncOrderSearch]
  simpa [Nat.factorial_zero, pow_zero] using hn

theorem truncSearch_terminates_valid_witness :
    ((0 : Real) ≤ 0 ∧ (0 : Real) < 1 ∧ (0 : Real) < 1/2) ∧
    (∃ fuel n, truncOrderSearch 0 1 (1/2) fuel = some n) :=
  ⟨⟨le_refl 0, zero_lt_one, one_half_pos⟩,
   truncSearch_terminates_valid 0 (1/2) 1 (le_refl 0) zero_lt_one one_half_pos⟩

/-- C6 amended: Init performs no validation: every bandwidth, tolerance and
dataset pair is accepted unconditionally, the kernel and tau are stored as
given, the densities buffer gets one entry per query point, and a zero-length
query set yields an empty (not erroneous) densities vector. -/
theorem init_no_validation (bandwidth tau : Real) (qdim qnum : Nat)
    (qset : Nat → Nat → Real) (rdim rnum : Nat) (rset : Nat → Nat → Real) :
    (FGTKdeInit bandwidth tau qdim qnum qset rdim rnum rset).kernel.bandwidth_sq
        = bandwidth * bandwidth ∧
    (FGTKdeInit bandwidth tau qdim qnum qset rdim rnum rset).tau = tau ∧
    (FGTKdeInit bandwidth tau qdim qnum qset rdim rnum rset).densities.length = qnum ∧
    (FGTKdeInit bandwidth tau qdim 0 qset rdim rnum rset).densities = [] := by
  refine ⟨rfl, rfl, ?_, rfl⟩
  simp [FGTKdeInit]

/-- C6 counterexample: the configuration bandwidth = 1, tau = 2 violates the
spec's validity requirement (tau must be below 1), yet Init stores it
unchanged and the preprocessing proceeds to run the truncation-order search
to completion on it: nothing is rejected before computation begins. -/
theorem init_accepts_invalid_config :
    ¬ specValidConfig 1 2 1 1 1 ∧
    (FGTKdeInit 1 2 1 0 (fun _ _ => 0) 1 1 (fun _ _ => 0)).tau = 2 ∧
    preprocessNterms (FGTKdeInit 1 2 1 0 (fun _ _ => 0) 1 1 (fun _ _ => 0)) 1 = some 1 := by
  refine ⟨?_, rfl, ?_⟩
  · rw [specValidConfig]
    intro h
    have := h.2.2.1
    norm_num at this
  · set st := FGTKdeInit 1 2 1 0 (fun _ _ => 0) 1 1 (fun _ _ => 0) with hst
    have hker : st.kernel.bandwidth_sq = 1 := by
      rw [hst]
      simp [FGTKdeInit]
    have hrnum : st.rnum = 1 := rfl
    have hrdim : st.rdim = 1 := rfl
    have hrset : ∀ d n, st.rset d n = 0 := fun _ _ => rfl
    have htau : st.tau = 2 := rfl
    have hsqrt : Real.sqrt st.kernel.bandwidth_sq = 1 := by
      rw [hker]
      exact Real.sqrt_one
    have hmin : ∀ di, preprocessMincoord st di = 0 := by
      intro di
      rw [preprocessMincoord, hrnum]
      simp only [List.range_succ, List.range_zero, List.nil_append, List.foldl_cons,
        List.foldl_nil, hrset]
      rw [if_pos (by rw [DBL_MAX]; norm_num)]
    have hmax : ∀ di, preprocessMaxcoord st di = 0 := by
      intro di
      rw [preprocessMaxcoord, hrnum]
      simp only [List.range_succ, List.range_zero, List.nil_append, List.foldl_cons,
        List.foldl_nil, hrset]
      rw [if_pos (by rw [DBL_MAX]; norm_num)]
    have hboxside : preprocessBoxside st = 0 := by
      rw [preprocessBoxside, hrdim]
      simp only [List.range_succ, List.range_zero, List.nil_append, List.foldl_cons,
        List.foldl_nil, hmin, hmax]
      rw [if_pos]
      · rw [sub_zero, zero_div]
      · rw [sub_zero, zero_div]
        norm_num
    rw [preprocessNterms, hboxside, hrdim, htau, mul_zero]
    rw [truncOrderSearch, truncLoopGo]
    rw [if_neg]
    norm_num
